import Mathlib

/-!
Shallow embedding of the storage layer of `lfs-server-s3`
(`s3_content_store.go`): the content-addressable blob store (`contentPut`,
`contentGet`, `contentExists`), the object metadata store (`metaGet`,
`metaPut`) and the per-repository lock manager (`AddLocks`, `Locks`,
`FilteredLocks`, `DeleteLock`, `AllLocks`).

The remote S3 bucket is modelled as association lists from full object keys
to decoded documents, together with a list of keys whose download currently
fails (`readFails`): in S3 a read can fail transiently, and a missing key is
also a download error, which is exactly how the Go code observes the bucket
(`s3Get` returns `(nil, err)` in both cases).  Serialization round-trips are
abstracted: a stored document is represented by its decoded value (gob for
metadata records, JSON for lock collections); writes are modelled as always
succeeding, and malformed stored documents (unmarshal failures) are outside
the model.  Byte contents are `List Nat`, byte counts are `Int` (Go `int64`),
and the SHA-256 digest function is an explicit parameter of `contentPut`
(the Go code calls `crypto/sha256`, an external library).
-/

/-- Modelled from the spec: the lock owner record (§3: `Owner: {Name: string}`);
the Go file defining it is not among the provided sources. -/
structure User where
  Name : String
  deriving DecidableEq, Repr

/-- Modelled from the spec: a lock record (§3:
`{Id, Path, Owner, LockedAt: timestamp}`); the Go file defining it is not
among the provided sources.  `LockedAt` is a timestamp, modelled as `Int`;
`time.Time.Before` is its strict order. -/
structure Lock where
  Id : String
  Path : String
  Owner : User
  LockedAt : Int
  deriving DecidableEq, Repr

/-- Modelled from the spec: the object metadata record (§3:
`{Oid: lowercase hex string, Size: non-negative integer, Existing: bool}`);
the Go file defining it is not among the provided sources.  `Size` is a Go
`int64`, modelled as `Int`. -/
structure MetaObject where
  Oid : String
  Size : Int
  Existing : Bool
  deriving DecidableEq, Repr

/-- Modelled from the spec: the request variables consumed by the metadata
store (`v.Oid`, `v.Size`); the Go file defining `RequestVars` is not among
the provided sources. -/
structure RequestVars where
  Oid : String
  Size : Int
  deriving DecidableEq, Repr

/-- `blobPrefix = "blobs"` of the content store. -/
def blobPfx : String := "blobs"

/-- `objectsPrefix = "objects"` of the meta store. -/
def objectsPfx : String := "objects"

/-- `locksPrefix = "locks"` of the meta store. -/
def locksPfx : String := "locks"

/-- `makeKey`: `fmt.Sprintf("%s/%s", prefix, key)`. -/
def makeKey (pfx key : String) : String := pfx ++ "/" ++ key

/-- Modelled from the spec: `transformKey` is called by the content store but
its definition is not among the provided sources; §3 gives the blob key
namespace as `blobs/<oid>`, so the key transformation is the identity on the
oid. -/
def transformKey (oid : String) : String := oid

/-- Full key of a blob: `blobs/<oid>`. -/
def blobKey (oid : String) : String := makeKey blobPfx (transformKey oid)

/-- Full key of a metadata record: `objects/<oid>`. -/
def objKey (oid : String) : String := makeKey objectsPfx oid

/-- Full key of a lock collection document: `locks/<repo>`. -/
def lockKey (repo : String) : String := makeKey locksPfx repo

/-- First-match lookup in an association list keyed by full object key;
models reading the (unique) S3 object stored under a key. -/
def lookupDoc {α : Type} : List (String × α) → String → Option α
  | [], _ => none
  | kv :: rest, k => if kv.1 = k then some kv.2 else lookupDoc rest k

/-- Overwriting write of an S3 object. -/
def putDoc {α : Type} (l : List (String × α)) (k : String) (v : α) :
    List (String × α) :=
  (k, v) :: l.filter (fun kv => kv.1 != k)

/-- Deletion of an S3 object. -/
def delDoc {α : Type} (l : List (String × α)) (k : String) :
    List (String × α) :=
  l.filter (fun kv => kv.1 != k)

theorem lookupDoc_putDoc_self {α : Type} (l : List (String × α)) (k : String)
    (v : α) : lookupDoc (putDoc l k v) k = some v := by
  simp [putDoc, lookupDoc]

theorem lookupDoc_filter_ne {α : Type} (l : List (String × α)) (k : String) :
    lookupDoc (l.filter (fun kv => kv.1 != k)) k = none := by
  induction l with
  | nil => simp [lookupDoc]
  | cons kv rest ih =>
    by_cases h : kv.1 = k
    · simp [List.filter_cons, h, ih]
    · simp [List.filter_cons, h, lookupDoc, ih]

theorem lookupDoc_delDoc_self {α : Type} (l : List (String × α)) (k : String) :
    lookupDoc (delDoc l k) k = none := lookupDoc_filter_ne l k

/-- The content store's view of the bucket: full key to blob bytes. -/
abbrev ContentState := List (String × List Nat)

/-- Errors of `S3ContentStore.Put`. -/
inductive PutErr where
  | sizeMismatch
  | hashMismatch
  deriving DecidableEq, Repr

/-- `S3ContentStore.Put`: streams the input through a SHA-256 digest while
buffering it (`io.TeeReader` + `io.Copy`); then checks
`written != meta.Size` (`errSizeMismatch`), then
`hex.EncodeToString(digest.Sum(nil)) != meta.Oid` (`errHashMismatch`), and
only then uploads the buffered bytes under `blobs/<transformKey(oid)>`.
The digest function is an explicit parameter; on either failure the store
component of the result is unchanged. -/
def contentPut (sha256hex : List Nat → String) (meta : MetaObject)
    (b : List Nat) (store : ContentState) : Except PutErr Unit × ContentState :=
  let key := makeKey blobPfx (transformKey meta.Oid)
  let written : Int := b.length
  if written ≠ meta.Size then (.error .sizeMismatch, store)
  else if sha256hex b ≠ meta.Oid then (.error .hashMismatch, store)
  else (.ok (), putDoc store key b)

/-- `S3ContentStore.Get`: allocates `buf := make([]byte, meta.Size)`, downloads
the object into it and returns a reader over `buf`.  If the object is larger
than `meta.Size` the `WriteAtBuffer` reallocates internally and the local
`buf` keeps only the first `meta.Size` bytes; if it is smaller, `buf` keeps
its zero padding.  `fromByte` is accepted but never used. -/
def contentGet (store : ContentState) (meta : MetaObject) (fromByte : Int) :
    Except Unit (List Nat) :=
  match lookupDoc store (makeKey blobPfx (transformKey meta.Oid)) with
  | none => .error ()
  | some content =>
      .ok ((content ++ List.replicate (meta.Size.toNat - content.length) 0).take
        meta.Size.toNat)

/-- `S3ContentStore.Exists`: a HEAD probe; any error (including true absence)
is `false`. -/
def contentExists (store : ContentState) (meta : MetaObject) : Bool :=
  (lookupDoc store (makeKey blobPfx (transformKey meta.Oid))).isSome

theorem take_len_append (l r : List Nat) : (l ++ r).take l.length = l := by
  induction l with
  | nil => simp
  | cons a t ih => simp [ih]

/-- C1: `contentPut` checks the byte count against `meta.Size` first, failing
with `SizeMismatch` (regardless of the digest); only when the sizes agree
does it compare the hex digest with `meta.Oid`, failing with `HashMismatch`;
and only when both checks pass is the blob uploaded under `blobs/<oid>`.
On either failure the remote store is unchanged. -/
theorem C1_content_put_verify_order (sha : List Nat → String)
    (meta : MetaObject) (b : List Nat) (store : ContentState) :
    ((b.length : Int) ≠ meta.Size →
      contentPut sha meta b store = (.error .sizeMismatch, store)) ∧
    ((b.length : Int) = meta.Size → sha b ≠ meta.Oid →
      contentPut sha meta b store = (.error .hashMismatch, store)) ∧
    ((b.length : Int) = meta.Size → sha b = meta.Oid →
      contentPut sha meta b store =
        (.ok (), putDoc store (makeKey blobPfx (transformKey meta.Oid)) b)) := by
  refine ⟨fun h1 => ?_, fun h1 h2 => ?_, fun h1 h2 => ?_⟩
  · simp only [contentPut]
    rw [if_pos h1]
  · simp only [contentPut]
    rw [if_neg (not_not_intro h1), if_pos h2]
  · simp only [contentPut]
    rw [if_neg (not_not_intro h1), if_neg (not_not_intro h2)]

theorem C1_content_put_verify_order_witness :
    contentPut (fun _ => "aa") ⟨"aa", 2, false⟩ [7] [] =
      (.error .sizeMismatch, []) ∧
    contentPut (fun _ => "bb") ⟨"aa", 1, false⟩ [7] [] =
      (.error .hashMismatch, []) ∧
    contentPut (fun _ => "aa") ⟨"aa", 1, false⟩ [7] [] =
      (.ok (), [("blobs/aa", [7])]) := by
  refine ⟨?_, ?_, ?_⟩
  · exact (C1_content_put_verify_order (fun _ => "aa") ⟨"aa", 2, false⟩ [7] []).1
      (by decide)
  · exact (C1_content_put_verify_order (fun _ => "bb") ⟨"aa", 1, false⟩ [7] []).2.1
      (by decide) (by decide)
  · exact (C1_content_put_verify_order (fun _ => "aa") ⟨"aa", 1, false⟩ [7] []).2.2
      (by decide) (by decide)

/-- C8: for a stored object whose content length equals `meta.Size`,
`contentGet` returns the full content from offset zero for every value of
`fromByte`; in particular the result never depends on `fromByte`. -/
theorem C8_get_ignores_from_byte (store : ContentState) (meta : MetaObject)
    (content : List Nat)
    (hstored : lookupDoc store (makeKey blobPfx (transformKey meta.Oid)) =
      some content)
    (hsize : (content.length : Int) = meta.Size) :
    (∀ fromByte : Int, contentGet store meta fromByte = .ok content) ∧
    (∀ f1 f2 : Int, contentGet store meta f1 = contentGet store meta f2) := by
  have hnat : meta.Size.toNat = content.length := by
    rw [← hsize]
    exact Int.toNat_natCast content.length
  constructor
  · intro fromByte
    simp only [contentGet, hstored, hnat, Nat.sub_self, List.replicate_zero]
    rw [List.append_nil, List.take_length]
  · intro f1 f2
    simp only [contentGet]

theorem C8_get_ignores_from_byte_witness :
    contentGet [("blobs/x", [1, 2, 3])] ⟨"x", 3, false⟩ 2 = .ok [1, 2, 3] := by
  exact (C8_get_ignores_from_byte [("blobs/x", [1, 2, 3])] ⟨"x", 3, false⟩
    [1, 2, 3] (by decide) (by decide)).1 2

/-- The meta store's view of the bucket: lock collection documents under
`locks/<repo>`, metadata records under `objects/<oid>`, plus the keys whose
download currently fails. -/
structure S3State where
  locks : List (String × List Lock)
  objects : List (String × MetaObject)
  readFails : List String
  deriving DecidableEq, Repr

/-- `s3Get` on a lock collection document: a download error (the key is
failing, or the object is absent) is `.error`; otherwise the decoded
collection. -/
def s3GetLocks (st : S3State) (key : String) : Except Unit (List Lock) :=
  if key ∈ st.readFails then .error ()
  else
    match lookupDoc st.locks key with
    | some d => .ok d
    | none => .error ()

/-- `s3Get` on a metadata record. -/
def s3GetObj (st : S3State) (key : String) : Except Unit MetaObject :=
  if key ∈ st.readFails then .error ()
  else
    match lookupDoc st.objects key with
    | some m => .ok m
    | none => .error ()

/-- `S3MetaStore.Get`/`UnsafeGet`: decode the record at `objects/<oid>`. -/
def metaGet (st : S3State) (v : RequestVars) : Except Unit MetaObject :=
  s3GetObj st (objKey v.Oid)

/-- `S3MetaStore.Put`: if `Get` succeeds, return the stored record with
`Existing := true` and write nothing; otherwise encode `{Oid, Size}` and
write it under `objects/<oid>`. -/
def metaPut (st : S3State) (v : RequestVars) :
    Except Unit MetaObject × S3State :=
  match metaGet st v with
  | .ok m => (.ok { m with Existing := true }, st)
  | .error _ =>
      let meta : MetaObject := { Oid := v.Oid, Size := v.Size, Existing := false }
      (.ok meta, { st with objects := putDoc st.objects (objKey v.Oid) meta })

/-- The comparison of `LocksByCreatedAt` (`Less i j = LockedAt i < LockedAt j`)
in its reflexive closure, used to state sortedness. -/
def lockLe (a b : Lock) : Bool := a.LockedAt ≤ b.LockedAt

/-- Insertion step of the sort modelling `sort.Sort(LocksByCreatedAt(locks))`. -/
def insertLock (a : Lock) : List Lock → List Lock
  | [] => [a]
  | b :: rest => if lockLe a b then a :: b :: rest else b :: insertLock a rest

/-- `sort.Sort(LocksByCreatedAt(locks))`: a comparison sort by `LockedAt`
(Go's sort is unstable, so any comparison sort realises its postcondition). -/
def sortLocks : List Lock → List Lock
  | [] => []
  | a :: rest => insertLock a (sortLocks rest)

/-- Ascending by `LockedAt`. -/
def lockSorted : List Lock → Bool
  | [] => true
  | a :: rest => rest.all (lockLe a) && lockSorted rest

theorem mem_insertLock (a x : Lock) (l : List Lock) :
    x ∈ insertLock a l ↔ x = a ∨ x ∈ l := by
  induction l with
  | nil => simp [insertLock]
  | cons b rest ih =>
    by_cases h : lockLe a b
    · simp [insertLock, h]
    · simp [insertLock, h, ih]
      tauto

theorem mem_sortLocks (x : Lock) (l : List Lock) :
    x ∈ sortLocks l ↔ x ∈ l := by
  induction l with
  | nil => simp [sortLocks]
  | cons a rest ih => simp [sortLocks, mem_insertLock, ih]

theorem lockSorted_insertLock (a : Lock) (l : List Lock)
    (h : lockSorted l = true) : lockSorted (insertLock a l) = true := by
  induction l with
  | nil => simp [insertLock, lockSorted]
  | cons b rest ih =>
    simp only [lockSorted, Bool.and_eq_true, List.all_eq_true] at h
    by_cases hab : lockLe a b
    · simp only [insertLock, hab, if_true, lockSorted, Bool.and_eq_true,
        List.all_eq_true]
      refine ⟨fun x hx => ?_, h.1, h.2⟩
      rcases List.mem_cons.1 hx with hxb | hxr
      · exact hxb ▸ hab
      · have hbx := h.1 x hxr
        simp only [lockLe, decide_eq_true_eq] at hab hbx ⊢
        omega
    · have hba : lockLe b a = true := by
        simp only [lockLe, decide_eq_true_eq] at hab ⊢
        omega
      simp only [insertLock, hab, if_false, lockSorted, Bool.and_eq_true,
        List.all_eq_true]
      refine ⟨fun x hx => ?_, ih h.2⟩
      rcases (mem_insertLock a x rest).1 hx with hxa | hxr
      · exact hxa ▸ hba
      · exact h.1 x hxr

theorem lockSorted_sortLocks (l : List Lock) :
    lockSorted (sortLocks l) = true := by
  induction l with
  | nil => rfl
  | cons a rest ih => exact lockSorted_insertLock a (sortLocks rest) ih

theorem lockSorted_filter (p : Lock → Bool) (l : List Lock)
    (h : lockSorted l = true) : lockSorted (l.filter p) = true := by
  induction l with
  | nil => simp [lockSorted]
  | cons a rest ih =>
    simp only [lockSorted, Bool.and_eq_true, List.all_eq_true] at h
    by_cases hp : p a
    · simp only [List.filter_cons, hp, if_true, lockSorted, Bool.and_eq_true,
        List.all_eq_true]
      exact ⟨fun x hx => h.1 x (List.mem_of_mem_filter hx), ih h.2⟩
    · simp only [List.filter_cons, hp, if_false]
      exact ih h.2

/-- `S3MetaStore.AddLocks`: `data, _ := s3Get(key)` (the error is discarded;
on any download failure `data` is nil and the collection starts empty),
append the new locks, sort by `LockedAt` and write the whole document back.
The write is modelled as succeeding. -/
def AddLocks (st : S3State) (repo : String) (l : List Lock) : S3State :=
  let key := lockKey repo
  let locks : List Lock :=
    match s3GetLocks st key with
    | .ok d => d
    | .error _ => []
  { st with locks := putDoc st.locks key (sortLocks (locks ++ l)) }

/-- `S3MetaStore.Locks`: `data, _ := s3Get(key)`; on any download failure the
collection is empty (not an error). -/
def Locks (st : S3State) (repo : String) : List Lock :=
  match s3GetLocks st (lockKey repo) with
  | .ok d => d
  | .error _ => []

/-- The Go zero value of `Lock` (`var lock Lock`). -/
def zeroLock : Lock := { Id := "", Path := "", Owner := { Name := "" }, LockedAt := 0 }

/-- The `for _, l := range locks` loop of `S3MetaStore.DeleteLock`, carrying
the `lock` and `newLocks` accumulators.  A matching lock owned by someone
else without `force` returns `errNotOwner`; a matching lock is remembered in
`lock` and dropped from `newLocks`; a non-matching lock is kept only when its
`Id` is non-empty (`len(l.Id) > 0`). -/
def deleteLockLoop (user id : String) (force : Bool) :
    List Lock → Lock → List Lock → Except Unit (Lock × List Lock)
  | [], lock, newLocks => .ok (lock, newLocks)
  | l :: rest, lock, newLocks =>
      if l.Id = id then
        if l.Owner.Name ≠ user ∧ force = false then .error ()
        else deleteLockLoop user id force rest l newLocks
      else if 0 < l.Id.length then
        deleteLockLoop user id force rest lock (newLocks ++ [l])
      else deleteLockLoop user id force rest lock newLocks

/-- Errors of `S3MetaStore.DeleteLock`. -/
inductive DelErr where
  | ioError
  | permissionDenied
  deriving DecidableEq, Repr

/-- `S3MetaStore.DeleteLock`: a failing `s3Get` (including an absent document)
is returned as an error; then the range loop runs; if no matching lock was
seen (`lock.Id == ""`) the result is `nil` with no error and nothing is
written; if the rewritten collection is empty the document is deleted;
otherwise it is rewritten.  The second component of the result is the bucket
state after the call. -/
def DeleteLock (st : S3State) (repo user id : String) (force : Bool) :
    Except DelErr (Option Lock) × S3State :=
  let key := lockKey repo
  match s3GetLocks st key with
  | .error _ => (.error .ioError, st)
  | .ok locks =>
      match deleteLockLoop user id force locks zeroLock [] with
      | .error _ => (.error .permissionDenied, st)
      | .ok (lock, newLocks) =>
          if lock.Id = "" then (.ok none, st)
          else if newLocks = [] then
            (.ok (some lock), { st with locks := delDoc st.locks key })
          else (.ok (some lock), { st with locks := putDoc st.locks key newLocks })

/-- The `lastSeen` loop of `S3MetaStore.FilteredLocks`: index of the first
lock whose `Id` equals the cursor. -/
def findCursorIdx (cursor : String) : List Lock → Option Nat
  | [] => none
  | l :: rest =>
      if l.Id = cursor then some 0 else (findCursorIdx cursor rest).map (· + 1)

/-- Digit-accumulation core of `strconv.Atoi`. -/
def digitsVal (acc : Nat) : List Char → Option Nat
  | [] => some acc
  | c :: rest =>
      if c.isDigit then digitsVal (acc * 10 + (c.toNat - 48)) rest else none

/-- `strconv.Atoi`: optional sign followed by at least one ASCII digit
(overflow of the machine `int` is outside the model). -/
def atoi (s : String) : Option Int :=
  match s.data with
  | [] => none
  | '-' :: rest =>
      match rest with
      | [] => none
      | _ => (digitsVal 0 rest).map (fun n => -(n : Int))
  | '+' :: rest =>
      match rest with
      | [] => none
      | _ => (digitsVal 0 rest).map (fun n => (n : Int))
  | cs => (digitsVal 0 cs).map (fun n => (n : Int))

/-- Errors of `S3MetaStore.FilteredLocks`. -/
inductive FLErr where
  | cursorNotFound
  | invalidLimit
  deriving DecidableEq, Repr

/-- `S3MetaStore.FilteredLocks`: load the collection (`Locks`), then apply
the cursor filter (slice from the first lock whose `Id` equals the cursor;
`cursor (...) not found` otherwise), then the exact-path filter, then the
limit: parse failure or a negative value is `Invalid limit amount`;
otherwise `size := min(limit, len(locks))`, a `next` cursor is set only when
`size+1 < len(locks)`, and the sequence is truncated to `size`. -/
def FilteredLocks (st : S3State) (repo pathF cursor limit : String) :
    Except FLErr (List Lock × String) :=
  let locks0 := Locks st repo
  match
    (if cursor = "" then some locks0
     else (findCursorIdx cursor locks0).map (fun i => locks0.drop i)) with
  | none => .error .cursorNotFound
  | some locks1 =>
      let locks2 := if pathF = "" then locks1 else locks1.filter (fun l => l.Path == pathF)
      if limit = "" then .ok (locks2, "")
      else
        match atoi limit with
        | none => .error .invalidLimit
        | some n =>
            if n < 0 then .error .invalidLimit
            else
              let size := min n.toNat locks2.length
              let next := if size + 1 < locks2.length
                then (locks2.getD size zeroLock).Id else ""
              .ok (locks2.take size, next)

/-- The per-key loop of `S3MetaStore.AllLocks`: fetch each listed key, stop at
the first failing fetch, and rewrite each lock's `Path` to
`fmt.Sprintf("%s:%s", k, lv.Path)` where `k` is the full listed key. -/
def allLocksGo (st : S3State) : List String → Except Unit (List Lock)
  | [] => .ok []
  | k :: rest =>
      match s3GetLocks st k with
      | .error _ => .error ()
      | .ok d =>
          match allLocksGo st rest with
          | .error _ => .error ()
          | .ok ls => .ok ((d.map fun lv => { lv with Path := k ++ ":" ++ lv.Path }) ++ ls)

/-- `S3MetaStore.AllLocks`: list every key under the `locks` namespace (the
keys of the stored lock documents, in storage order) and concatenate the
rewritten collections. -/
def AllLocks (st : S3State) : Except Unit (List Lock) :=
  allLocksGo st (st.locks.map (fun kv => kv.1))

theorem string_pos_len_iff (s : String) : 0 < s.length ↔ s ≠ "" := by
  rcases s with ⟨data⟩
  cases data with
  | nil => decide
  | cons c cs =>
    constructor
    · intro _ he
      have h2 : (c :: cs : List Char) = ([] : List Char) := congrArg String.data he
      exact List.noConfusion h2
    · intro _
      exact Nat.succ_pos cs.length

/-- The keep-condition of the `DeleteLock` rewrite loop as a filter predicate:
not the targeted id, and a non-empty `Id` (`len(l.Id) > 0`). -/
def keepPred (id : String) (l : Lock) : Bool :=
  !(l.Id == id) && !(l.Id == "")

theorem filter_keepPred_eq (id : String) (locks : List Lock) :
    locks.filter (fun l => !(l.Id == id) && decide (0 < l.Id.length)) =
      locks.filter (keepPred id) := by
  apply List.filter_congr
  intro l _
  by_cases h2 : l.Id = ""
  · simp [keepPred, h2]
  · have hpos : 0 < l.Id.length := (string_pos_len_iff l.Id).2 h2
    simp [keepPred, h2, hpos]

theorem deleteLockLoop_err (user id : String) (locks : List Lock) :
    (∃ l ∈ locks, l.Id = id ∧ l.Owner.Name ≠ user) →
    ∀ lock acc, deleteLockLoop user id false locks lock acc = .error () := by
  induction locks with
  | nil =>
    rintro ⟨w, hw, _⟩
    exact absurd hw (List.not_mem_nil w)
  | cons l rest ih =>
    rintro ⟨w, hw, hwid, hwown⟩ lock acc
    by_cases hid : l.Id = id
    · by_cases hown : l.Owner.Name = user
      · have hw2 : w ∈ rest := by
          rcases List.mem_cons.1 hw with h1 | h1
          · exact absurd (h1 ▸ hown) hwown
          · exact h1
        simp only [deleteLockLoop, if_pos hid]
        rw [if_neg (by simp [hown])]
        exact ih ⟨w, hw2, hwid, hwown⟩ l acc
      · simp [deleteLockLoop, hid, hown]
    · have hw2 : w ∈ rest := by
        rcases List.mem_cons.1 hw with h1 | h1
        · exact absurd (h1 ▸ hwid) hid
        · exact h1
      simp only [deleteLockLoop, if_neg hid]
      by_cases hlen : 0 < l.Id.length
      · rw [if_pos hlen]
        exact ih ⟨w, hw2, hwid, hwown⟩ lock (acc ++ [l])
      · rw [if_neg hlen]
        exact ih ⟨w, hw2, hwid, hwown⟩ lock acc

theorem deleteLockLoop_nomatch (user id : String) (force : Bool)
    (locks : List Lock) :
    (∀ l ∈ locks, l.Id ≠ id) →
    ∀ lock acc, ∃ newLocks,
      deleteLockLoop user id force locks lock acc = .ok (lock, newLocks) := by
  induction locks with
  | nil => exact fun _ lock acc => ⟨acc, rfl⟩
  | cons l rest ih =>
    intro hno lock acc
    have hid : ¬ l.Id = id := hno l (List.mem_cons_self l rest)
    have hrest : ∀ x ∈ rest, x.Id ≠ id :=
      fun x hx => hno x (List.mem_cons_of_mem l hx)
    simp only [deleteLockLoop, if_neg hid]
    by_cases hlen : 0 < l.Id.length
    · rw [if_pos hlen]
      exact ih hrest lock (acc ++ [l])
    · rw [if_neg hlen]
      exact ih hrest lock acc

theorem deleteLockLoop_ok_snd (user id : String) (force : Bool)
    (locks : List Lock) :
    ∀ lock acc res, deleteLockLoop user id force locks lock acc = .ok res →
      res.2 = acc ++
        locks.filter (fun l => !(l.Id == id) && decide (0 < l.Id.length)) := by
  induction locks with
  | nil =>
    intro lock acc res h
    injection h with h
    rw [← h]
    simp
  | cons l rest ih =>
    intro lock acc res h
    simp only [deleteLockLoop] at h
    by_cases hid : l.Id = id
    · rw [if_pos hid] at h
      by_cases hbad : l.Owner.Name ≠ user ∧ force = false
      · rw [if_pos hbad] at h
        injection h
      · rw [if_neg hbad] at h
        rw [ih l acc res h]
        congr 1
        simp [List.filter_cons, hid]
    · rw [if_neg hid] at h
      by_cases hlen : 0 < l.Id.length
      · rw [if_pos hlen] at h
        rw [ih lock (acc ++ [l]) res h, List.append_assoc]
        congr 1
        simp [List.filter_cons, hid, hlen]
      · rw [if_neg hlen] at h
        rw [ih lock acc res h]
        congr 1
        simp [List.filter_cons, hid, hlen]

theorem deleteLockLoop_fst (user id : String) (force : Bool)
    (locks : List Lock) :
    ∀ lock acc res, deleteLockLoop user id force locks lock acc = .ok res →
      res.1 = lock ∨ (res.1 ∈ locks ∧ res.1.Id = id) := by
  induction locks with
  | nil =>
    intro lock acc res h
    injection h with h
    rw [← h]
    exact .inl rfl
  | cons l rest ih =>
    intro lock acc res h
    simp only [deleteLockLoop] at h
    by_cases hid : l.Id = id
    · rw [if_pos hid] at h
      by_cases hbad : l.Owner.Name ≠ user ∧ force = false
      · rw [if_pos hbad] at h
        injection h
      · rw [if_neg hbad] at h
        rcases ih l acc res h with h1 | h1
        · exact .inr ⟨h1 ▸ List.mem_cons_self l rest, h1 ▸ hid⟩
        · exact .inr ⟨List.mem_cons_of_mem l h1.1, h1.2⟩
    · rw [if_neg hid] at h
      by_cases hlen : 0 < l.Id.length
      · rw [if_pos hlen] at h
        rcases ih lock (acc ++ [l]) res h with h1 | h1
        · exact .inl h1
        · exact .inr ⟨List.mem_cons_of_mem l h1.1, h1.2⟩
      · rw [if_neg hlen] at h
        rcases ih lock acc res h with h1 | h1
        · exact .inl h1
        · exact .inr ⟨List.mem_cons_of_mem l h1.1, h1.2⟩

theorem findCursorIdx_none (cursor : String) (locks : List Lock) :
    (∀ l ∈ locks, l.Id ≠ cursor) → findCursorIdx cursor locks = none := by
  induction locks with
  | nil => exact fun _ => rfl
  | cons l rest ih =>
    intro hno
    have hl : ¬ l.Id = cursor := hno l (List.mem_cons_self l rest)
    simp only [findCursorIdx, if_neg hl]
    rw [ih (fun x hx => hno x (List.mem_cons_of_mem l hx))]
    rfl

theorem findCursorIdx_first_match (cursor : String) (pre : List Lock)
    (h : Lock) (post : List Lock) :
    (∀ l ∈ pre, l.Id ≠ cursor) → h.Id = cursor →
    findCursorIdx cursor (pre ++ h :: post) = some pre.length := by
  induction pre with
  | nil =>
    intro _ hh
    simp [findCursorIdx, hh]
  | cons a t ih =>
    intro hpre hh
    have ha : ¬ a.Id = cursor := hpre a (List.mem_cons_self a t)
    have ih2 := ih (fun x hx => hpre x (List.mem_cons_of_mem a hx)) hh
    simp [List.cons_append, findCursorIdx, ha, ih2]

/-- The `Path`-rewriting concatenation that `AllLocks` produces, as a direct
specification over the stored documents: each listed storage key `k` is
prepended to the lock's path as `k ++ ":" ++ path`. -/
def allLocksSpec : List (String × List Lock) → List Lock
  | [] => []
  | kv :: rest =>
      kv.2.map (fun lv => { lv with Path := kv.1 ++ ":" ++ lv.Path }) ++
        allLocksSpec rest

theorem allLocksGo_spec (st : S3State) (kvs : List (String × List Lock)) :
    (∀ kv ∈ kvs, s3GetLocks st kv.1 = .ok kv.2) →
    allLocksGo st (kvs.map (fun kv => kv.1)) = .ok (allLocksSpec kvs) := by
  induction kvs with
  | nil => exact fun _ => rfl
  | cons kv rest ih =>
    intro hread
    have h1 := hread kv (List.mem_cons_self kv rest)
    have h2 := ih (fun x hx => hread x (List.mem_cons_of_mem kv hx))
    simp only [List.map_cons, allLocksGo, h1, h2, allLocksSpec]

theorem drop_len_append {α : Type} (l r : List α) : (l ++ r).drop l.length = r := by
  induction l with
  | nil => simp
  | cons a t ih => simp [ih]

instance {ε α : Type} [DecidableEq ε] [DecidableEq α] :
    DecidableEq (Except ε α) := fun a b =>
  match a, b with
  | .error e1, .error e2 =>
      if h : e1 = e2 then .isTrue (by rw [h])
      else .isFalse (by intro hc; injection hc with hc; exact h hc)
  | .error _, .ok _ => .isFalse (by intro hc; injection hc)
  | .ok _, .error _ => .isFalse (by intro hc; injection hc)
  | .ok v1, .ok v2 =>
      if h : v1 = v2 then .isTrue (by rw [h])
      else .isFalse (by intro hc; injection hc with hc; exact h hc)

def lkA : Lock := { Id := "a", Path := "p", Owner := { Name := "u" }, LockedAt := 1 }

def lkB : Lock := { Id := "b", Path := "p", Owner := { Name := "u" }, LockedAt := 2 }

def lkC : Lock := { Id := "c", Path := "p", Owner := { Name := "u" }, LockedAt := 3 }

def lkE : Lock := { Id := "", Path := "q", Owner := { Name := "u" }, LockedAt := 5 }

def lkOther : Lock := { Id := "x", Path := "p", Owner := { Name := "bob" }, LockedAt := 4 }

def stC2 : S3State :=
  { locks := [("locks/r", [lkA, lkB, lkC])], objects := [], readFails := [] }

/-- C2 (code bug, evaluated at the failing input): with 3 stored locks and
limit `"2"`, `FilteredLocks` returns 2 locks and an *empty* `nextCursor`,
because the code only sets `next` when `size+1 < len(locks)`; the claim (and
the spec) require `nextCursor = "c"` here, since exactly one lock remains
beyond the truncation point.  A client paging with this limit never learns
about the third lock. -/
theorem C2_filtered_locks_limit_bug :
    FilteredLocks stC2 "r" "" "" "2" = .ok ([lkA, lkB], "") ∧
    Locks stC2 "r" = [lkA, lkB, lkC] := by
  constructor
  · rfl
  · rfl

/-- C3 (counterexample): `AddLocks` with zero new locks on an absent document
persists a document holding the empty collection, so "a collection with zero
locks is never persisted as a document" fails for `AddLocks`. -/
theorem C3_empty_doc_counterexample :
    lookupDoc (AddLocks { locks := [], objects := [], readFails := [] } "r" []).locks
      (lockKey "r") = some [] := by
  rfl

/-- C3 (amended): after every `AddLocks` the persisted collection is sorted
ascending by `LockedAt`, and a document is always written — including an
empty one when `AddLocks` runs with zero new locks on an absent document
(the sole departure from the claim); after every successful `DeleteLock` on
a sorted stored collection, the document is either deleted (when the
rewritten collection is empty) or rewritten to a non-empty sorted
collection. -/
theorem C3_mutation_invariant_amended :
    (∀ (st : S3State) (repo : String) (newLocks : List Lock), ∃ d,
      lookupDoc (AddLocks st repo newLocks).locks (lockKey repo) = some d ∧
      lockSorted d = true) ∧
    (∀ (st : S3State) (repo user id : String) (force : Bool)
      (locks : List Lock) (dl : Lock) (st2 : S3State),
      s3GetLocks st (lockKey repo) = .ok locks →
      lockSorted locks = true →
      DeleteLock st repo user id force = (.ok (some dl), st2) →
      lookupDoc st2.locks (lockKey repo) = none ∨
      ∃ d, lookupDoc st2.locks (lockKey repo) = some d ∧ d ≠ [] ∧
        lockSorted d = true) := by
  constructor
  · intro st repo newLocks
    simp only [AddLocks]
    exact ⟨_, lookupDoc_putDoc_self _ _ _, lockSorted_sortLocks _⟩
  · intro st repo user id force locks dl st2 hread hsort hdel
    simp only [DeleteLock, hread] at hdel
    cases hloop : deleteLockLoop user id force locks zeroLock [] with
    | error e =>
      simp only [hloop] at hdel
      simp at hdel
    | ok p =>
      obtain ⟨lock, newLocks⟩ := p
      simp only [hloop] at hdel
      by_cases hlid : lock.Id = ""
      · rw [if_pos hlid] at hdel
        simp at hdel
      · rw [if_neg hlid] at hdel
        by_cases hnew : newLocks = []
        · rw [if_pos hnew] at hdel
          have hst2 : st2 = { st with locks := delDoc st.locks (lockKey repo) } :=
            (congrArg Prod.snd hdel).symm
          left
          rw [hst2]
          exact lookupDoc_delDoc_self st.locks (lockKey repo)
        · rw [if_neg hnew] at hdel
          have hst2 : st2 = { st with locks := putDoc st.locks (lockKey repo) newLocks } :=
            (congrArg Prod.snd hdel).symm
          right
          refine ⟨newLocks, ?_, hnew, ?_⟩
          · rw [hst2]
            exact lookupDoc_putDoc_self _ _ _
          · have hf := deleteLockLoop_ok_snd user id force locks zeroLock []
              (lock, newLocks) hloop
            simp only [List.nil_append] at hf
            rw [show newLocks = (lock, newLocks).2 from rfl, hf]
            exact lockSorted_filter _ locks hsort

def stDel : S3State :=
  { locks := [("locks/r", [lkB])], objects := [], readFails := [] }

theorem C3_mutation_invariant_amended_witness :
    lookupDoc ({ locks := [], objects := [], readFails := [] } : S3State).locks
      (lockKey "r") = none := by
  have h := C3_mutation_invariant_amended.2 stDel "r" "u" "b" false [lkB] lkB
    { locks := [], objects := [], readFails := [] } (by decide) (by decide)
    (by decide)
  rcases h with h | ⟨d, hd, _, _⟩
  · exact h
  · exact Option.noConfusion (show (none : Option (List Lock)) = some d from hd)

/-- C4: on a readable stored collection, if some lock with the given id is
owned by someone else and `force` is false, `DeleteLock` fails with
`PermissionDenied` and the bucket state is unchanged (no write or delete);
and if no lock with that id exists, it returns `nil` with no error and the
state is unchanged. -/
theorem C4_delete_lock_permission (st : S3State) (repo user id : String)
    (locks : List Lock)
    (hread : s3GetLocks st (lockKey repo) = .ok locks) :
    ((∃ l ∈ locks, l.Id = id ∧ l.Owner.Name ≠ user) →
      DeleteLock st repo user id false = (.error .permissionDenied, st)) ∧
    (∀ force : Bool, (∀ l ∈ locks, l.Id ≠ id) →
      DeleteLock st repo user id force = (.ok none, st)) := by
  constructor
  · intro hex
    have herr := deleteLockLoop_err user id locks hex zeroLock []
    simp only [DeleteLock, hread, herr]
  · intro force hno
    obtain ⟨newLocks, hok⟩ := deleteLockLoop_nomatch user id force locks hno zeroLock []
    simp only [DeleteLock, hread, hok]
    rfl

def stW4 : S3State :=
  { locks := [("locks/r", [lkOther])], objects := [], readFails := [] }

theorem C4_delete_lock_permission_witness :
    DeleteLock stW4 "r" "alice" "x" false = (.error .permissionDenied, stW4) ∧
    DeleteLock stW4 "r" "alice" "zz" false = (.ok none, stW4) := by
  constructor
  · exact (C4_delete_lock_permission stW4 "r" "alice" "x" [lkOther]
      (by decide)).1 (by decide)
  · exact (C4_delete_lock_permission stW4 "r" "alice" "zz" [lkOther]
      (by decide)).2 false (by decide)

/-- C5: with a non-empty cursor, if no stored lock has that id,
`FilteredLocks` fails with `CursorNotFound` for every path and limit; if the
collection decomposes as `pre ++ h :: post` with the first match `h` at the
head of `post`, the cursor stage keeps `h` and everything after it (shown
with empty path and limit, which are applied after the cursor stage). -/
theorem C5_cursor_filter (st : S3State) (repo cursor : String)
    (hc : cursor ≠ "") :
    ((∀ l ∈ Locks st repo, l.Id ≠ cursor) →
      ∀ pathF limit, FilteredLocks st repo pathF cursor limit =
        .error .cursorNotFound) ∧
    (∀ pre h post, Locks st repo = pre ++ h :: post →
      (∀ l ∈ pre, l.Id ≠ cursor) → h.Id = cursor →
      FilteredLocks st repo "" cursor "" = .ok (h :: post, "")) := by
  constructor
  · intro hno pathF limit
    have hfind := findCursorIdx_none cursor (Locks st repo) hno
    simp only [FilteredLocks, if_neg hc, hfind, Option.map_none']
  · intro pre h post hdecomp hpre hh
    have hfind := findCursorIdx_first_match cursor pre h post hpre hh
    simp only [FilteredLocks, if_neg hc, hdecomp, hfind, Option.map_some',
      drop_len_append, eq_self_iff_true, if_true]

theorem C5_cursor_filter_witness :
    FilteredLocks stC2 "r" "" "b" "" = .ok ([lkB, lkC], "") ∧
    FilteredLocks stC2 "r" "" "zz" "" = .error .cursorNotFound := by
  constructor
  · exact (C5_cursor_filter stC2 "r" "b" (by decide)).2 [lkA] lkB [lkC]
      (by decide) (by decide) (by decide)
  · exact (C5_cursor_filter stC2 "r" "zz" (by decide)).1 (by decide) "" ""

/-- C6: `metaPut` is an idempotent upsert: when a record for the oid is
stored (and readable), it returns that stored record with `Existing := true`
and the bucket state is unchanged, even when the supplied size differs from
the stored one; when no record is stored, it writes `{oid, size}` under
`objects/<oid>`. -/
theorem C6_meta_put_upsert (st : S3State) (oid : String) (size : Int)
    (hok : objKey oid ∉ st.readFails) :
    (∀ m, lookupDoc st.objects (objKey oid) = some m →
      metaPut st ⟨oid, size⟩ = (.ok { m with Existing := true }, st)) ∧
    (lookupDoc st.objects (objKey oid) = none →
      metaPut st ⟨oid, size⟩ =
        (.ok ⟨oid, size, false⟩,
         { st with objects := putDoc st.objects (objKey oid) ⟨oid, size, false⟩ })) := by
  constructor
  · intro m hm
    simp only [metaPut, metaGet, s3GetObj, if_neg hok, hm]
  · intro hm
    simp only [metaPut, metaGet, s3GetObj, if_neg hok, hm]

def mStored : MetaObject := { Oid := "o1", Size := 5, Existing := false }

def stC6 : S3State :=
  { locks := [], objects := [("objects/o1", mStored)], readFails := [] }

theorem C6_meta_put_upsert_witness :
    metaPut stC6 ⟨"o1", 99⟩ =
      (.ok { Oid := "o1", Size := 5, Existing := true }, stC6) ∧
    metaPut stC6 ⟨"o2", 7⟩ =
      (.ok ⟨"o2", 7, false⟩,
       { stC6 with objects := putDoc stC6.objects (objKey "o2") ⟨"o2", 7, false⟩ }) := by
  constructor
  · exact (C6_meta_put_upsert stC6 "o1" 99 (by decide)).1 mStored (by decide)
  · exact (C6_meta_put_upsert stC6 "o2" 7 (by decide)).2 (by decide)

def lk1 : Lock := { Id := "1", Path := "p", Owner := { Name := "u" }, LockedAt := 0 }

def stC7 : S3State :=
  { locks := [("locks/r", [lk1])], objects := [], readFails := [] }

/-- C7 (counterexample): `AllLocks` rewrites the path using the full listed
storage key `locks/r`, not the bare repository name `r`: the returned path is
`"locks/r:p"`, not `"r:p"` as the claim states. -/
theorem C7_all_locks_counterexample :
    AllLocks stC7 =
      .ok [{ Id := "1", Path := "locks/r:p", Owner := { Name := "u" },
             LockedAt := 0 }] ∧
    "locks/r:p" ≠ "r:p" := by
  constructor
  · rfl
  · decide

/-- C7 (amended): when every stored lock document is readable, `AllLocks`
returns the concatenation of all collections with each lock's `Path`
rewritten to `"<key>:<path>"`, where `<key>` is the full listed storage key
`locks/<repo>` (not the bare repository name). -/
theorem C7_all_locks_rewrite_amended (st : S3State)
    (hread : ∀ kv ∈ st.locks, s3GetLocks st kv.1 = .ok kv.2) :
    AllLocks st = .ok (allLocksSpec st.locks) :=
  allLocksGo_spec st st.locks hread

theorem C7_all_locks_rewrite_amended_witness :
    AllLocks stC7 = .ok (allLocksSpec stC7.locks) :=
  C7_all_locks_rewrite_amended stC7 (by decide)

/-- C9: when the download of `locks/<repo>` fails while a (non-empty or not)
collection is in fact stored there, `AddLocks` starts from an empty
collection and writes back a document containing exactly the sorted new
locks, silently discarding every previously stored lock. -/
theorem C9_add_locks_read_failure (st : S3State) (repo : String)
    (newLocks stored : List Lock)
    (hfail : lockKey repo ∈ st.readFails)
    (hstored : lookupDoc st.locks (lockKey repo) = some stored) :
    lookupDoc (AddLocks st repo newLocks).locks (lockKey repo) =
      some (sortLocks newLocks) ∧
    (∀ l, l ∈ sortLocks newLocks ↔ l ∈ newLocks) := by
  constructor
  · simp only [AddLocks, s3GetLocks, if_pos hfail, List.nil_append]
    exact lookupDoc_putDoc_self _ _ _
  · exact fun l => mem_sortLocks l newLocks

def stC9 : S3State :=
  { locks := [("locks/r", [lkA, lkB])], objects := [], readFails := ["locks/r"] }

theorem C9_add_locks_read_failure_witness :
    lookupDoc (AddLocks stC9 "r" [lkC]).locks (lockKey "r") = some [lkC] :=
  (C9_add_locks_read_failure stC9 "r" [lkC] [lkA, lkB] (by decide)
    (by decide)).1

/-- C10: a successful `DeleteLock` (one that returns a deleted lock) rewrites
the collection to exactly the stored locks whose `Id` is neither the
targeted id nor the empty string, in their original order (deleting the
document instead when that rewrite is empty); the deleted lock carries the
targeted id. -/
theorem C10_delete_lock_frame (st : S3State) (repo user id : String)
    (force : Bool) (locks : List Lock) (dl : Lock) (st2 : S3State)
    (hread : s3GetLocks st (lockKey repo) = .ok locks)
    (hdel : DeleteLock st repo user id force = (.ok (some dl), st2)) :
    dl.Id = id ∧
    lookupDoc st2.locks (lockKey repo) =
      (if locks.filter (keepPred id) = [] then none
       else some (locks.filter (keepPred id))) := by
  simp only [DeleteLock, hread] at hdel
  cases hloop : deleteLockLoop user id force locks zeroLock [] with
  | error e =>
    simp only [hloop] at hdel
    simp at hdel
  | ok p =>
    obtain ⟨lock, newLocks⟩ := p
    simp only [hloop] at hdel
    by_cases hlid : lock.Id = ""
    · rw [if_pos hlid] at hdel
      simp at hdel
    · rw [if_neg hlid] at hdel
      have hfst := deleteLockLoop_fst user id force locks zeroLock []
        (lock, newLocks) hloop
      have hlockid : lock.Id = id := by
        rcases hfst with h1 | h1
        · exfalso
          apply hlid
          have h2 : lock = zeroLock := h1
          rw [h2]
          rfl
        · exact h1.2
      have hkeep : newLocks = locks.filter (keepPred id) := by
        have hs := deleteLockLoop_ok_snd user id force locks zeroLock []
          (lock, newLocks) hloop
        simp only [List.nil_append] at hs
        rw [show newLocks = (lock, newLocks).2 from rfl, hs, filter_keepPred_eq]
      by_cases hnew : newLocks = []
      · rw [if_pos hnew] at hdel
        injection hdel with h1 h2
        injection h1 with h1
        injection h1 with h1
        refine ⟨h1 ▸ hlockid, ?_⟩
        rw [← h2, ← hkeep, if_pos hnew]
        exact lookupDoc_delDoc_self st.locks (lockKey repo)
      · rw [if_neg hnew] at hdel
        injection hdel with h1 h2
        injection h1 with h1
        injection h1 with h1
        refine ⟨h1 ▸ hlockid, ?_⟩
        rw [← h2, ← hkeep, if_neg hnew]
        exact lookupDoc_putDoc_self _ _ _

def stC10 : S3State :=
  { locks := [("locks/r", [lkA, lkE, lkB])], objects := [], readFails := [] }

theorem C10_delete_lock_frame_witness :
    lookupDoc ([("locks/r", [lkB])] : List (String × List Lock))
      (lockKey "r") = some [lkB] :=
  (C10_delete_lock_frame stC10 "r" "u" "a" false [lkA, lkE, lkB] lkA
    { locks := [("locks/r", [lkB])], objects := [], readFails := [] }
    (by decide) (by decide)).2
